import Mathlib

/-!
Verification of the mutual-fund portfolio tracker accounting core.

The JavaScript source is embedded shallowly: monetary quantities (units,
NAVs, amounts) are rationals, so the arithmetic below is the exact-value
semantics of the formulas of the source; database rows become explicit values
(`Option` for a row that may be absent), and each service method becomes a
pure function from the state it reads to the state it writes.  Lists stand
for query results in the order the source requests them (ascending
(time, txId) for transactions, newest-first for NAV history).
-/

namespace MFPT

/-! ## Embedding of src/helpers/fifo-helpers.js -/

/-- A purchase lot as used by `FifoHelpers.calculateFifoSell`:
`{ units, pricePerUnit }` (the `date` field is never read by the
computation and is omitted). -/
structure HelperLot where
  units : ℚ
  pricePerUnit : ℚ
deriving DecidableEq, Repr

/-- The object returned by `FifoHelpers.calculateFifoSell`. -/
structure FifoSellResult where
  remainingLots : List HelperLot
  realizedPL : ℚ
  unitsSold : ℚ
  remainingToSell : ℚ
deriving DecidableEq, Repr

/-- Sum of `lot.units` over a lot list (`FifoHelpers.getTotalUnits`). -/
def getTotalUnits (lots : List HelperLot) : ℚ :=
  (lots.map HelperLot.units).sum

/-- The `for` loop of `FifoHelpers.calculateFifoSell`: walk the lots from
the head while `remainingToSell > 0`; a lot with `units ≤ remainingToSell`
is consumed whole and removed, otherwise it is split and the loop stops. -/
def fifoSellLoop (currentPrice : ℚ) :
    List HelperLot → ℚ → ℚ → ℚ → FifoSellResult
  | [], remainingToSell, realizedPL, unitsSold =>
      ⟨[], realizedPL, unitsSold, remainingToSell⟩
  | lot :: rest, remainingToSell, realizedPL, unitsSold =>
      if remainingToSell ≤ 0 then
        ⟨lot :: rest, realizedPL, unitsSold, remainingToSell⟩
      else if lot.units ≤ remainingToSell then
        fifoSellLoop currentPrice rest (remainingToSell - lot.units)
          (realizedPL + (currentPrice - lot.pricePerUnit) * lot.units)
          (unitsSold + lot.units)
      else
        ⟨⟨lot.units - remainingToSell, lot.pricePerUnit⟩ :: rest,
          realizedPL + (currentPrice - lot.pricePerUnit) * remainingToSell,
          unitsSold + remainingToSell, 0⟩

/-- `FifoHelpers.calculateFifoSell(lots, unitsToSell, currentPrice)`:
early return on an empty lot list or a non-positive `unitsToSell`,
otherwise run the FIFO loop on a copy of the lots. -/
def calculateFifoSell (lots : List HelperLot) (unitsToSell currentPrice : ℚ) :
    FifoSellResult :=
  if lots.isEmpty ∨ unitsToSell ≤ 0 then
    ⟨lots, 0, 0, unitsToSell⟩
  else
    fifoSellLoop currentPrice lots unitsToSell 0 0

theorem getTotalUnits_nil : getTotalUnits [] = 0 := rfl

theorem getTotalUnits_cons (l : HelperLot) (ls : List HelperLot) :
    getTotalUnits (l :: ls) = l.units + getTotalUnits ls := by
  simp [getTotalUnits]

theorem getTotalUnits_nonneg (lots : List HelperLot)
    (hpos : ∀ l ∈ lots, 0 < l.units) : 0 ≤ getTotalUnits lots := by
  induction lots with
  | nil => simp [getTotalUnits]
  | cons l ls ih =>
      rw [getTotalUnits_cons]
      have h1 : 0 < l.units := hpos l (List.mem_cons_self l ls)
      have h2 : 0 ≤ getTotalUnits ls := ih fun x hx => hpos x (List.mem_cons_of_mem l hx)
      linarith

theorem fifoSellLoop_spec (p : ℚ) (lots : List HelperLot) (rts pl sold : ℚ)
    (hpos : ∀ l ∈ lots, 0 < l.units) (hrts : 0 ≤ rts) :
    (fifoSellLoop p lots rts pl sold).unitsSold
        + (fifoSellLoop p lots rts pl sold).remainingToSell = sold + rts ∧
    (fifoSellLoop p lots rts pl sold).unitsSold
        = sold + min rts (getTotalUnits lots) ∧
    getTotalUnits (fifoSellLoop p lots rts pl sold).remainingLots
        = getTotalUnits lots - min rts (getTotalUnits lots) ∧
    ∀ l ∈ (fifoSellLoop p lots rts pl sold).remainingLots, 0 < l.units := by
  induction lots generalizing rts pl sold with
  | nil =>
      have hmin : min rts (0 : ℚ) = 0 := min_eq_right hrts
      simp [fifoSellLoop, getTotalUnits_nil, hmin]
  | cons lot rest ih =>
      have hposrest : ∀ l ∈ rest, 0 < l.units :=
        fun x hx => hpos x (List.mem_cons_of_mem lot hx)
      have hlotpos : 0 < lot.units := hpos lot (List.mem_cons_self lot rest)
      have hrestnn : 0 ≤ getTotalUnits rest := getTotalUnits_nonneg rest hposrest
      by_cases h0 : rts ≤ 0
      · have hz : rts = 0 := le_antisymm h0 hrts
        subst hz
        have hmin : min (0 : ℚ) (getTotalUnits (lot :: rest)) = 0 := by
          apply min_eq_left
          rw [getTotalUnits_cons]; linarith
        have hstep0 : fifoSellLoop p (lot :: rest) 0 pl sold
            = ⟨lot :: rest, pl, sold, 0⟩ := by
          simp [fifoSellLoop]
        rw [hstep0]
        exact ⟨by simp, by simp [hmin], by simp [hmin], hpos⟩
      · have hpos0 : 0 < rts := lt_of_not_le h0
        by_cases h2 : lot.units ≤ rts
        · have hrts2 : 0 ≤ rts - lot.units := by linarith
          have hstep :
              fifoSellLoop p (lot :: rest) rts pl sold
                = fifoSellLoop p rest (rts - lot.units)
                    (pl + (p - lot.pricePerUnit) * lot.units)
                    (sold + lot.units) := by
            simp [fifoSellLoop, h0, h2]
          obtain ⟨ih1, ih2, ih3, ih4⟩ :=
            ih (rts - lot.units) (pl + (p - lot.pricePerUnit) * lot.units)
              (sold + lot.units) hposrest hrts2
          have hmin : min rts (getTotalUnits (lot :: rest))
              = lot.units + min (rts - lot.units) (getTotalUnits rest) := by
            rw [getTotalUnits_cons]
            rcases le_total (rts - lot.units) (getTotalUnits rest) with hc | hc
            · rw [min_eq_left hc, min_eq_left (by linarith)]; ring
            · rw [min_eq_right hc, min_eq_right (by linarith)]
          refine ⟨?_, ?_, ?_, ?_⟩
          · rw [hstep]; linarith
          · rw [hstep, ih2, hmin]; ring
          · rw [hstep, ih3, hmin, getTotalUnits_cons]; ring
          · rw [hstep]; exact ih4
        · have hlt : rts < lot.units := lt_of_not_le h2
          have hstep :
              fifoSellLoop p (lot :: rest) rts pl sold
                = ⟨⟨lot.units - rts, lot.pricePerUnit⟩ :: rest,
                    pl + (p - lot.pricePerUnit) * rts, sold + rts, 0⟩ := by
            simp [fifoSellLoop, h0, h2]
          have hmin : min rts (getTotalUnits (lot :: rest)) = rts := by
            apply min_eq_left
            rw [getTotalUnits_cons]; linarith
          refine ⟨?_, ?_, ?_, ?_⟩
          · rw [hstep]; simp
          · rw [hstep, hmin]
          · rw [hstep, hmin]
            simp only [getTotalUnits_cons]
            show lot.units - rts + getTotalUnits rest
                = lot.units + getTotalUnits rest - rts
            ring
          · rw [hstep]
            intro l hl
            rcases List.mem_cons.mp hl with hl | hl
            · subst hl
              show 0 < lot.units - rts
              linarith
            · exact hposrest l hl

/-- Claim C10, counterexample: with an input lot of zero units,
`calculateFifoSell([{units 10, price 1}, {units 0, price 2}], 7, 5)`
returns `remainingLots = [{units 3, price 1}, {units 0, price 2}]`, whose
second lot has units `0`, not strictly positive, and `unitsSold = 7` while
the claim would also force `unitsSold = min 7 (10 + 0) = 7` (that part
holds); the strict-positivity clause of the claim fails on this input. -/
theorem calculateFifoSell_zero_lot_counterexample :
    (calculateFifoSell [⟨10, 1⟩, ⟨0, 2⟩] 7 5).remainingLots
        = [⟨3, 1⟩, ⟨0, 2⟩] ∧
    ¬ (∀ l ∈ (calculateFifoSell [⟨10, 1⟩, ⟨0, 2⟩] 7 5).remainingLots,
        0 < l.units) := by
  have hval : (calculateFifoSell [⟨10, 1⟩, ⟨0, 2⟩] 7 5).remainingLots
      = [⟨3, 1⟩, ⟨0, 2⟩] := by
    norm_num [calculateFifoSell, fifoSellLoop]
  refine ⟨hval, fun h => ?_⟩
  have h2 := h ⟨0, 2⟩ (by rw [hval]; simp)
  norm_num at h2

/-- Claim C10 (amended: all input lots strictly positive): the pure FIFO
sell conserves units: `unitsSold + remainingToSell = unitsToSell`,
`unitsSold = min unitsToSell (total input units)`, the remaining lots
total the input total minus `unitsSold`, and every remaining lot has
strictly positive units.  (The embedding is pure, so the input list is
trivially unmutated, matching the deep copy in the source.) -/
theorem calculateFifoSell_conservation (lots : List HelperLot)
    (unitsToSell currentPrice : ℚ)
    (hpos : ∀ l ∈ lots, 0 < l.units) (hu : 0 < unitsToSell) :
    (calculateFifoSell lots unitsToSell currentPrice).unitsSold
        + (calculateFifoSell lots unitsToSell currentPrice).remainingToSell
        = unitsToSell ∧
    (calculateFifoSell lots unitsToSell currentPrice).unitsSold
        = min unitsToSell (getTotalUnits lots) ∧
    getTotalUnits (calculateFifoSell lots unitsToSell currentPrice).remainingLots
        = getTotalUnits lots
          - (calculateFifoSell lots unitsToSell currentPrice).unitsSold ∧
    ∀ l ∈ (calculateFifoSell lots unitsToSell currentPrice).remainingLots,
        0 < l.units := by
  by_cases hemp : lots.isEmpty
  · have hnil : lots = [] := List.isEmpty_iff.mp hemp
    subst hnil
    have hmin : min unitsToSell (0 : ℚ) = 0 := min_eq_right (le_of_lt hu)
    simp [calculateFifoSell, getTotalUnits_nil, hmin]
  · have hcond : ¬ (lots.isEmpty ∨ unitsToSell ≤ 0) := by
      push_neg
      exact ⟨hemp, hu⟩
    have hstep : calculateFifoSell lots unitsToSell currentPrice
        = fifoSellLoop currentPrice lots unitsToSell 0 0 := by
      unfold calculateFifoSell
      rw [if_neg hcond]
    obtain ⟨h1, h2, h3, h4⟩ :=
      fifoSellLoop_spec currentPrice lots unitsToSell 0 0 hpos (le_of_lt hu)
    rw [hstep]
    refine ⟨by linarith, by linarith, ?_, h4⟩
    rw [h3, h2]; ring

/-- Witness for `calculateFifoSell_conservation` at
`lots = [{2, 10}, {3, 12}]`, `unitsToSell = 4`, `currentPrice = 15`. -/
theorem calculateFifoSell_conservation_witness :
    (calculateFifoSell [⟨2, 10⟩, ⟨3, 12⟩] 4 15).unitsSold
        + (calculateFifoSell [⟨2, 10⟩, ⟨3, 12⟩] 4 15).remainingToSell = 4 ∧
    (calculateFifoSell [⟨2, 10⟩, ⟨3, 12⟩] 4 15).unitsSold
        = min 4 (getTotalUnits [⟨2, 10⟩, ⟨3, 12⟩]) ∧
    getTotalUnits (calculateFifoSell [⟨2, 10⟩, ⟨3, 12⟩] 4 15).remainingLots
        = getTotalUnits [⟨2, 10⟩, ⟨3, 12⟩]
          - (calculateFifoSell [⟨2, 10⟩, ⟨3, 12⟩] 4 15).unitsSold ∧
    ∀ l ∈ (calculateFifoSell [⟨2, 10⟩, ⟨3, 12⟩] 4 15).remainingLots,
        0 < l.units :=
  calculateFifoSell_conservation [⟨2, 10⟩, ⟨3, 12⟩] 4 15
    (by decide) (by norm_num)

/-! ## Embedding of src/services/portfolio-service.js

The Mongo collections become explicit values: the `Holding` row for the
one (portfolio, scheme) pair under study is an `Option Holding`, and the
`Transaction` collection is a list in append order; `find(...).sort(date: 1)`
returns the BUY (resp. SELL) sub-list in that same order, since appended
transactions carry ascending timestamps. -/

/-- Transaction type tag (`type ∈ {BUY, SELL}`). -/
inductive TxType
  | buy
  | sell
deriving DecidableEq, Repr

/-- A `Transaction` row: `{ type, units, nav }` (amount = units × nav and
the timestamp are omitted; the position in the log encodes the order). -/
structure Transaction where
  type : TxType
  units : ℚ
  nav : ℚ
deriving DecidableEq, Repr

/-- A `Holding` row (the cached Position aggregate). -/
structure Holding where
  totalUnits : ℚ
  avgNav : ℚ
  investedValue : ℚ
deriving DecidableEq, Repr

/-- The state of one portfolio: its Holding row (if any) and its
transaction log in append order. -/
structure PortfolioState where
  holding : Option Holding
  log : List Transaction
deriving DecidableEq, Repr

/-- The empty portfolio: no Holding row, empty transaction log. -/
def emptyPortfolio : PortfolioState := ⟨none, []⟩

/-- A BUY transaction as consumed by `calculateFifoRealizedPL`. -/
structure BuyTx where
  units : ℚ
  nav : ℚ
deriving DecidableEq, Repr

/-- An open lot `{ units, nav }` of `calculateFifoRealizedPL`. -/
structure Lot where
  units : ℚ
  nav : ℚ
deriving DecidableEq, Repr

/-- The BUY transactions of a log, in log (ascending date) order. -/
def buysOf (log : List Transaction) : List BuyTx :=
  (log.filter fun t => t.type = TxType.buy).map fun t => ⟨t.units, t.nav⟩

/-- The units of the SELL transactions of a log, in log order. -/
def sellUnitsOf (log : List Transaction) : List ℚ :=
  (log.filter fun t => t.type = TxType.sell).map Transaction.units

/-- Sum of units over a BUY transaction list. -/
def sumBuyUnits (buys : List BuyTx) : ℚ :=
  (buys.map BuyTx.units).sum

/-- First loop of `calculateFifoRealizedPL`: walk the BUY transactions,
consuming `remainingSellUnits` (the total units of all prior SELLs) from
the head; push the residue of each lot when it is strictly positive. -/
def buildOpenLots : List BuyTx → ℚ → List Lot
  | [], _ => []
  | buy :: rest, remainingSellUnits =>
      if 0 < remainingSellUnits then
        if buy.units ≤ remainingSellUnits then
          buildOpenLots rest (remainingSellUnits - buy.units)
        else
          ⟨buy.units - remainingSellUnits, buy.nav⟩ :: buildOpenLots rest 0
      else
        if 0 < buy.units then
          ⟨buy.units, buy.nav⟩ :: buildOpenLots rest remainingSellUnits
        else
          buildOpenLots rest remainingSellUnits

/-- Second loop of `calculateFifoRealizedPL`: consume `remainingToSell`
from the open lots, accumulating `(currentNav − lot.nav) × unitsFromThisLot`
with `unitsFromThisLot = min(remainingToSell, lot.units)`. -/
def fifoPL (currentNav : ℚ) : List Lot → ℚ → ℚ
  | [], _ => 0
  | lot :: rest, remainingToSell =>
      if remainingToSell ≤ 0 then 0
      else
        (currentNav - lot.nav) * min remainingToSell lot.units
          + fifoPL currentNav rest (remainingToSell - min remainingToSell lot.units)

/-- `PortfolioService.calculateFifoRealizedPL`: inputs are the portfolio
BUY transactions and the units of its SELL transactions, both in ascending
(time, txId) order as produced by the sorted queries. -/
def calculateFifoRealizedPL (buys : List BuyTx) (sellUnits : List ℚ)
    (unitsToSell currentNav : ℚ) : ℚ :=
  fifoPL currentNav (buildOpenLots buys sellUnits.sum) unitsToSell

/-- `PortfolioService.updateHoldingAfterBuy`: weighted-average update when
a Holding row exists, fresh row otherwise. -/
def updateHoldingAfterBuy (holding : Option Holding) (units nav : ℚ) : Holding :=
  match holding with
  | some h =>
      let totalInvestedValue := h.investedValue + units * nav
      let totalUnits := h.totalUnits + units
      ⟨totalUnits, totalInvestedValue / totalUnits, totalInvestedValue⟩
  | none => ⟨units, nav, units * nav⟩

/-- `PortfolioService.updateHoldingAfterSell`: delete the row when no
units remain (`remainingUnits ≤ 0`), otherwise keep `avgNav` and set
`investedValue = remainingUnits × avgNav`. -/
def updateHoldingAfterSell (h : Holding) (unitsSold : ℚ) : Option Holding :=
  let remainingUnits := h.totalUnits - unitsSold
  if remainingUnits ≤ 0 then none
  else some ⟨remainingUnits, h.avgNav, remainingUnits * h.avgNav⟩

/-- `PortfolioService.addUnits` (BUY): append the BUY transaction, then
update or create the Holding row. -/
def addUnits (s : PortfolioState) (units nav : ℚ) : PortfolioState :=
  ⟨some (updateHoldingAfterBuy s.holding units nav),
    s.log ++ [⟨TxType.buy, units, nav⟩]⟩

/-- The error thrown by `PortfolioService.removeUnits` when the Holding is
missing or too small (`Insufficient units to sell`). -/
inductive SellError
  | insufficientUnits
deriving DecidableEq, Repr

/-- `PortfolioService.removeUnits` (SELL): fail when there is no Holding
row or `holding.totalUnits < unitsToSell`; otherwise compute the FIFO
realized P/L from the log as it stands, append the SELL transaction, and
update the Holding row.  Returns the new state and the realized P/L. -/
def removeUnits (s : PortfolioState) (unitsToSell currentNav : ℚ) :
    Except SellError (PortfolioState × ℚ) :=
  match s.holding with
  | none => .error .insufficientUnits
  | some h =>
      if h.totalUnits < unitsToSell then .error .insufficientUnits
      else
        let realizedPL :=
          calculateFifoRealizedPL (buysOf s.log) (sellUnitsOf s.log)
            unitsToSell currentNav
        .ok (⟨updateHoldingAfterSell h unitsToSell,
              s.log ++ [⟨TxType.sell, unitsToSell, currentNav⟩]⟩, realizedPL)

/-- A BUY or SELL request against the portfolio. -/
inductive Op
  | buy (units nav : ℚ)
  | sell (units nav : ℚ)
deriving DecidableEq, Repr

/-- Requests that pass the API validation layer
(`portfolio-request.js`: `units` positive; NAV values are positive). -/
def ValidOp : Op → Prop
  | .buy u n => 0 < u ∧ 0 < n
  | .sell u n => 0 < u ∧ 0 < n

instance : DecidablePred ValidOp := fun op => by
  cases op <;> exact instDecidableAnd

/-- Apply one request; a BUY always succeeds, a SELL may fail. -/
def applyOp (s : PortfolioState) : Op → Except SellError PortfolioState
  | .buy u n => .ok (addUnits s u n)
  | .sell u n => (removeUnits s u n).map Prod.fst

/-- Apply a sequence of requests, stopping at the first failure. -/
def applyOps (s : PortfolioState) : List Op → Except SellError PortfolioState
  | [] => .ok s
  | op :: rest => (applyOp s op).bind fun s1 => applyOps s1 rest

/-- The cached `totalUnits`, an absent or deleted Holding counting as 0. -/
def holdingUnits (s : PortfolioState) : ℚ :=
  match s.holding with
  | none => 0
  | some h => h.totalUnits

/-- A state is reachable when some sequence of validated requests leads
to it from the empty portfolio with every request succeeding. -/
def Reachable (s : PortfolioState) : Prop :=
  ∃ ops : List Op, (∀ op ∈ ops, ValidOp op) ∧ applyOps emptyPortfolio ops = .ok s

/-! ## The FIFO reference computation of the spec (for claim C1)

These definitions follow the words of the specification, not the source: the
*open lot queue* is obtained by consuming `soldFromHead = Σ units of prior
SELLs` from the head of the BUY lots, and the SELL then consumes
`unitsToSell` from the head of that queue, one slice `(δ, nav_i)` at a
time, with `realizedPL = Σ (currentNav − nav_i) × δ`. -/

/-- Consume `soldFromHead` units from the head of a lot queue, splitting
the lot at the boundary (spec §4.2 step 3, second bullet). -/
def specConsumeFromHead : List Lot → ℚ → List Lot
  | [], _ => []
  | lot :: rest, soldFromHead =>
      if soldFromHead ≤ 0 then lot :: rest
      else if lot.units ≤ soldFromHead then
        specConsumeFromHead rest (soldFromHead - lot.units)
      else
        ⟨lot.units - soldFromHead, lot.nav⟩ :: rest

/-- The open lot queue of the spec: BUY lots in ascending (time, txId) order
with the units of all prior SELLs consumed from the head. -/
def specOpenLotQueue (buys : List BuyTx) (soldFromHead : ℚ) : List Lot :=
  specConsumeFromHead (buys.map fun b => ⟨b.units, b.nav⟩) soldFromHead

/-- The slices `(δ, nav_i)` consumed from the head of the open lot queue
by a SELL of `unitsToSell` units (spec §4.2 step 3, third bullet). -/
def specConsumeSlices : List Lot → ℚ → List (ℚ × ℚ)
  | [], _ => []
  | lot :: rest, unitsToSell =>
      if unitsToSell ≤ 0 then []
      else if lot.units ≤ unitsToSell then
        (lot.units, lot.nav) :: specConsumeSlices rest (unitsToSell - lot.units)
      else
        [(unitsToSell, lot.nav)]

/-- The reference realized P/L of the spec:
`Σ (currentNav − nav_i) × δ` over the consumed slices. -/
def specFifoRealizedPL (buys : List BuyTx) (sellUnits : List ℚ)
    (unitsToSell currentNav : ℚ) : ℚ :=
  ((specConsumeSlices (specOpenLotQueue buys sellUnits.sum) unitsToSell).map
    fun slice => (currentNav - slice.2) * slice.1).sum

theorem fifoPL_nonpos (cn : ℚ) (lots : List Lot) (rts : ℚ) (h : rts ≤ 0) :
    fifoPL cn lots rts = 0 := by
  cases lots with
  | nil => rfl
  | cons lot rest => simp [fifoPL, h]

theorem fifoPL_eq_slices (cn : ℚ) (lots : List Lot) (u : ℚ) :
    fifoPL cn lots u
      = ((specConsumeSlices lots u).map fun slice => (cn - slice.2) * slice.1).sum := by
  induction lots generalizing u with
  | nil => simp [fifoPL, specConsumeSlices]
  | cons lot rest ih =>
      by_cases h0 : u ≤ 0
      · simp [fifoPL, specConsumeSlices, h0]
      · by_cases h2 : lot.units ≤ u
        · have hmin : min u lot.units = lot.units := min_eq_right h2
          simp only [fifoPL, specConsumeSlices, if_neg h0, if_pos h2, hmin,
            List.map_cons, List.sum_cons]
          rw [ih]
        · have hlt : u < lot.units := lt_of_not_le h2
          have hmin : min u lot.units = u := min_eq_left (le_of_lt hlt)
          simp only [fifoPL, specConsumeSlices, if_neg h0, if_neg h2, hmin,
            List.map_cons, List.map_nil, List.sum_cons, List.sum_nil]
          rw [sub_self, fifoPL_nonpos cn rest 0 (le_refl 0)]

theorem specConsumeFromHead_nonpos (lots : List Lot) (s : ℚ) (h : s ≤ 0) :
    specConsumeFromHead lots s = lots := by
  cases lots with
  | nil => rfl
  | cons lot rest => simp [specConsumeFromHead, h]

theorem buildOpenLots_nonpos (buys : List BuyTx) (s : ℚ) (hs : s ≤ 0)
    (hpos : ∀ b ∈ buys, 0 < b.units) :
    buildOpenLots buys s = buys.map fun b => ⟨b.units, b.nav⟩ := by
  induction buys with
  | nil => rfl
  | cons b rest ih =>
      have hb : 0 < b.units := hpos b (List.mem_cons_self b rest)
      have hrest : ∀ x ∈ rest, 0 < x.units :=
        fun x hx => hpos x (List.mem_cons_of_mem b hx)
      simp only [buildOpenLots, if_neg (not_lt.mpr hs), if_pos hb,
        List.map_cons]
      rw [ih hrest]

theorem buildOpenLots_eq_spec (buys : List BuyTx) (s : ℚ)
    (hpos : ∀ b ∈ buys, 0 < b.units) :
    buildOpenLots buys s = specOpenLotQueue buys s := by
  induction buys generalizing s with
  | nil => rfl
  | cons b rest ih =>
      have hb : 0 < b.units := hpos b (List.mem_cons_self b rest)
      have hrest : ∀ x ∈ rest, 0 < x.units :=
        fun x hx => hpos x (List.mem_cons_of_mem b hx)
      by_cases h0 : 0 < s
      · by_cases h2 : b.units ≤ s
        · simp only [buildOpenLots, if_pos h0, if_pos h2, specOpenLotQueue,
            List.map_cons, specConsumeFromHead, if_neg (not_le.mpr h0)]
          rw [ih (s - b.units) hrest]
          rfl
        · simp only [buildOpenLots, if_pos h0, if_neg h2, specOpenLotQueue,
            List.map_cons, specConsumeFromHead, if_neg (not_le.mpr h0),
            if_neg h2]
          rw [buildOpenLots_nonpos rest 0 (le_refl 0) hrest]
      · have hs : s ≤ 0 := le_of_not_lt h0
        rw [buildOpenLots_nonpos (b :: rest) s hs hpos, specOpenLotQueue,
          specConsumeFromHead_nonpos _ s hs]

theorem calculateFifoRealizedPL_eq_spec (buys : List BuyTx)
    (sellUnits : List ℚ) (u cn : ℚ) (hpos : ∀ b ∈ buys, 0 < b.units) :
    calculateFifoRealizedPL buys sellUnits u cn
      = specFifoRealizedPL buys sellUnits u cn := by
  unfold calculateFifoRealizedPL specFifoRealizedPL
  rw [buildOpenLots_eq_spec buys sellUnits.sum hpos, fifoPL_eq_slices]

/-- Claim C1: every successful SELL returns a realized P/L equal to the
FIFO reference computation of the spec over the ordered BUY
transactions and the units of its prior SELLs (the BUY rows being
positive, as the validation layer guarantees). -/
theorem removeUnits_realizedPL_eq_fifo_reference (s : PortfolioState)
    (u cn : ℚ) (s1 : PortfolioState) (pl : ℚ)
    (hpos : ∀ b ∈ buysOf s.log, 0 < b.units)
    (hok : removeUnits s u cn = .ok (s1, pl)) :
    pl = specFifoRealizedPL (buysOf s.log) (sellUnitsOf s.log) u cn := by
  cases hh : s.holding with
  | none => simp [removeUnits, hh] at hok
  | some h =>
      by_cases hlt : h.totalUnits < u
      · simp [removeUnits, hh, hlt] at hok
      · simp only [removeUnits, hh, if_neg hlt, Except.ok.injEq,
          Prod.mk.injEq] at hok
        rw [← hok.2, calculateFifoRealizedPL_eq_spec _ _ _ _ hpos]

/-- Witness for `removeUnits_realizedPL_eq_fifo_reference`: one BUY of 2
units at NAV 10, then a SELL of 1 unit at NAV 12 realizes P/L 2. -/
theorem removeUnits_realizedPL_eq_fifo_reference_witness :
    (2 : ℚ) = specFifoRealizedPL (buysOf [⟨TxType.buy, 2, 10⟩])
      (sellUnitsOf [⟨TxType.buy, 2, 10⟩]) 1 12 :=
  removeUnits_realizedPL_eq_fifo_reference
    ⟨some ⟨2, 10, 20⟩, [⟨TxType.buy, 2, 10⟩]⟩ 1 12
    ⟨some ⟨1, 10, 10⟩, [⟨TxType.buy, 2, 10⟩, ⟨TxType.sell, 1, 12⟩]⟩ 2
    (by norm_num [buysOf])
    (by norm_num [removeUnits, updateHoldingAfterSell, calculateFifoRealizedPL,
      buildOpenLots, fifoPL, buysOf, sellUnitsOf, min_def])

/-! ## Log bookkeeping lemmas -/

theorem buysOf_append_buy (log : List Transaction) (u n : ℚ) :
    buysOf (log ++ [⟨TxType.buy, u, n⟩]) = buysOf log ++ [⟨u, n⟩] := by
  simp [buysOf, List.filter_append]

theorem sellUnitsOf_append_buy (log : List Transaction) (u n : ℚ) :
    sellUnitsOf (log ++ [⟨TxType.buy, u, n⟩]) = sellUnitsOf log := by
  simp [sellUnitsOf, List.filter_append]

theorem buysOf_append_sell (log : List Transaction) (u n : ℚ) :
    buysOf (log ++ [⟨TxType.sell, u, n⟩]) = buysOf log := by
  simp [buysOf, List.filter_append]

theorem sellUnitsOf_append_sell (log : List Transaction) (u n : ℚ) :
    sellUnitsOf (log ++ [⟨TxType.sell, u, n⟩]) = sellUnitsOf log ++ [u] := by
  simp [sellUnitsOf, List.filter_append]

/-- The units-conservation invariant of the cached Position
(spec §8 property 1). -/
def UnitsInv (s : PortfolioState) : Prop :=
  holdingUnits s = sumBuyUnits (buysOf s.log) - (sellUnitsOf s.log).sum

theorem sumBuyUnits_append (buys : List BuyTx) (b : BuyTx) :
    sumBuyUnits (buys ++ [b]) = sumBuyUnits buys + b.units := by
  simp [sumBuyUnits]

theorem applyOp_unitsInv (s s1 : PortfolioState) (op : Op)
    (hok : applyOp s op = .ok s1) (hinv : UnitsInv s) : UnitsInv s1 := by
  cases op with
  | buy u n =>
      have hs1 : s1 = addUnits s u n := by
        simpa [applyOp] using hok.symm
      subst hs1
      unfold UnitsInv at hinv ⊢
      simp only [addUnits, buysOf_append_buy, sellUnitsOf_append_buy,
        sumBuyUnits_append]
      cases hh : s.holding with
      | none =>
          have hu : holdingUnits s = 0 := by simp [holdingUnits, hh]
          rw [hu] at hinv
          simp [holdingUnits, updateHoldingAfterBuy]
          linarith
      | some h =>
          have hu : holdingUnits s = h.totalUnits := by
            simp [holdingUnits, hh]
          rw [hu] at hinv
          simp [holdingUnits, updateHoldingAfterBuy]
          linarith
  | sell u n =>
      cases hh : s.holding with
      | none => simp [applyOp, removeUnits, hh, Except.map] at hok
      | some h =>
          by_cases hlt : h.totalUnits < u
          · simp [applyOp, removeUnits, hh, hlt, Except.map] at hok
          · have hs1 : s1 = ⟨updateHoldingAfterSell h u,
                s.log ++ [⟨TxType.sell, u, n⟩]⟩ := by
              simp only [applyOp, removeUnits, hh, if_neg hlt, Except.map,
                Except.ok.injEq] at hok
              exact hok.symm
            subst hs1
            unfold UnitsInv at hinv ⊢
            have hu : holdingUnits s = h.totalUnits := by
              simp [holdingUnits, hh]
            rw [hu] at hinv
            by_cases hz : h.totalUnits - u ≤ 0
            · have hupd : updateHoldingAfterSell h u = none := by
                simp [updateHoldingAfterSell, hz]
              rw [hupd]
              simp only [holdingUnits, buysOf_append_sell,
                sellUnitsOf_append_sell, List.sum_append, List.sum_cons,
                List.sum_nil]
              have hge : u ≤ h.totalUnits := le_of_not_lt hlt
              linarith
            · have hupd : updateHoldingAfterSell h u
                  = some ⟨h.totalUnits - u, h.avgNav,
                      (h.totalUnits - u) * h.avgNav⟩ := by
                simp [updateHoldingAfterSell, hz]
              rw [hupd]
              simp only [holdingUnits, buysOf_append_sell,
                sellUnitsOf_append_sell, List.sum_append, List.sum_cons,
                List.sum_nil]
              linarith

theorem applyOps_unitsInv (ops : List Op) (s s1 : PortfolioState)
    (hok : applyOps s ops = .ok s1) (hinv : UnitsInv s) : UnitsInv s1 := by
  induction ops generalizing s with
  | nil =>
      have : s = s1 := by simpa [applyOps] using hok
      exact this ▸ hinv
  | cons op rest ih =>
      cases hstep : applyOp s op with
      | error e => simp [applyOps, hstep, Except.bind] at hok
      | ok smid =>
          have hrest : applyOps smid rest = .ok s1 := by
            simpa [applyOps, hstep, Except.bind] using hok
          exact ih smid hrest (applyOp_unitsInv s smid op hstep hinv)

/-- Claim C2: after any sequence of successful BUY/SELL operations from
the empty portfolio, Σ BUY.units − Σ SELL.units over the transaction log
equals the cached Position `totalUnits` exactly (an absent or deleted
Holding row counting as 0), hence within any tolerance ε. -/
theorem applyOps_units_conservation (ops : List Op) (s : PortfolioState)
    (hok : applyOps emptyPortfolio ops = .ok s) :
    holdingUnits s = sumBuyUnits (buysOf s.log) - (sellUnitsOf s.log).sum := by
  have hbase : UnitsInv emptyPortfolio := by
    simp [UnitsInv, emptyPortfolio, holdingUnits, buysOf, sellUnitsOf,
      sumBuyUnits]
  exact applyOps_unitsInv ops emptyPortfolio s hok hbase

/-- Witness for `applyOps_units_conservation`: a BUY of 2 units then a
SELL of 1 unit leaves a Holding of 1 unit, and 2 − 1 = 1. -/
theorem applyOps_units_conservation_witness :
    holdingUnits ⟨some ⟨1, 10, 10⟩,
        [⟨TxType.buy, 2, 10⟩, ⟨TxType.sell, 1, 10⟩]⟩
      = sumBuyUnits (buysOf [⟨TxType.buy, 2, 10⟩, ⟨TxType.sell, 1, 10⟩])
        - (sellUnitsOf [⟨TxType.buy, 2, 10⟩, ⟨TxType.sell, 1, 10⟩]).sum :=
  applyOps_units_conservation [.buy 2 10, .sell 1 10]
    ⟨some ⟨1, 10, 10⟩, [⟨TxType.buy, 2, 10⟩, ⟨TxType.sell, 1, 10⟩]⟩
    (by norm_num [applyOps, applyOp, addUnits, removeUnits, emptyPortfolio,
      updateHoldingAfterBuy, updateHoldingAfterSell, calculateFifoRealizedPL,
      buildOpenLots, fifoPL, buysOf, sellUnitsOf, Except.bind, Except.map,
      min_def])

/-! ## SELL guard and Holding update (claims C3, C4, C5) -/

/-- Claim C3: a SELL request against a Holding whose `totalUnits` is below
`unitsToSell` even after the spec tolerance `ε = 10⁻⁶` fails with the
insufficient-units error; no SELL transaction is appended and the Holding
row is untouched (the function returns no new state). -/
theorem removeUnits_insufficient_rejected (s : PortfolioState) (h : Holding)
    (u cn : ℚ) (hh : s.holding = some h)
    (hlt : h.totalUnits < u - 1 / 1000000) :
    removeUnits s u cn = .error .insufficientUnits := by
  have heps : (0 : ℚ) < 1 / 1000000 := by norm_num
  have hlt2 : h.totalUnits < u := by linarith
  simp [removeUnits, hh, hlt2]

/-- Witness for `removeUnits_insufficient_rejected`: a Holding of 30 units
rejects a SELL of 31 units. -/
theorem removeUnits_insufficient_rejected_witness :
    removeUnits ⟨some ⟨30, 10, 300⟩, [⟨TxType.buy, 30, 10⟩]⟩ 31 12
      = .error .insufficientUnits :=
  removeUnits_insufficient_rejected
    ⟨some ⟨30, 10, 300⟩, [⟨TxType.buy, 30, 10⟩]⟩ ⟨30, 10, 300⟩ 31 12
    rfl (by norm_num)

/-- Claim C4, counterexample: a Holding of `2·10⁻⁶` units sells `10⁻⁶`
units at NAV 10; the SELL succeeds, the remaining `totalUnits = 10⁻⁶` is
`≤ ε = 10⁻⁶`, yet the code keeps the row (it deletes only at
`remainingUnits ≤ 0`), contradicting the deletion clause of the claim. -/
theorem removeUnits_epsilon_row_kept_counterexample :
    removeUnits ⟨some ⟨2 / 1000000, 10, 20 / 1000000⟩,
        [⟨TxType.buy, 2 / 1000000, 10⟩]⟩ (1 / 1000000) 10
      = .ok (⟨some ⟨1 / 1000000, 10, 1 / 100000⟩,
          [⟨TxType.buy, 2 / 1000000, 10⟩, ⟨TxType.sell, 1 / 1000000, 10⟩]⟩,
          0) ∧
    (1 / 1000000 : ℚ) ≤ 1 / 1000000 ∧
    some ⟨1 / 1000000, 10, 1 / 100000⟩ ≠ (none : Option Holding) := by
  refine ⟨?_, le_refl _, by simp⟩
  norm_num [removeUnits, updateHoldingAfterSell, calculateFifoRealizedPL,
    buildOpenLots, fifoPL, buysOf, sellUnitsOf, min_def]

/-- Claim C4 (amended: the row is deleted only when the remaining units
are `≤ 0`, never in the claim scope `totalUnits > unitsToSell`): a
successful SELL with `totalUnits > unitsToSell` updates the row to
`totalUnits − unitsToSell` units, the same `avgNav`, and
`investedValue = remaining × avgNav`. -/
theorem removeUnits_updates_holding (s : PortfolioState) (h : Holding)
    (u cn : ℚ) (hh : s.holding = some h) (hgt : u < h.totalUnits) :
    ∃ pl : ℚ, removeUnits s u cn
      = .ok (⟨some ⟨h.totalUnits - u, h.avgNav, (h.totalUnits - u) * h.avgNav⟩,
          s.log ++ [⟨TxType.sell, u, cn⟩]⟩, pl) := by
  have hnlt : ¬ h.totalUnits < u := not_lt.mpr (le_of_lt hgt)
  have hnz : ¬ h.totalUnits - u ≤ 0 := by
    push_neg
    linarith
  refine ⟨calculateFifoRealizedPL (buysOf s.log) (sellUnitsOf s.log) u cn, ?_⟩
  simp [removeUnits, hh, hnlt, updateHoldingAfterSell, hnz]

/-- Witness for `removeUnits_updates_holding`: selling 40 of 100 units
bought at NAV 10 leaves `{60 units, avgNav 10, investedValue 600}`. -/
theorem removeUnits_updates_holding_witness :
    ∃ pl : ℚ, removeUnits ⟨some ⟨100, 10, 1000⟩, [⟨TxType.buy, 100, 10⟩]⟩
        40 (25 / 2)
      = .ok (⟨some ⟨100 - 40, 10, (100 - 40) * 10⟩,
          [⟨TxType.buy, 100, 10⟩] ++ [⟨TxType.sell, 40, 25 / 2⟩]⟩, pl) :=
  removeUnits_updates_holding ⟨some ⟨100, 10, 1000⟩, [⟨TxType.buy, 100, 10⟩]⟩
    ⟨100, 10, 1000⟩ 40 (25 / 2) rfl (by norm_num)

/-- Claim C5: a BUY of `units` at `nav` creates the Holding
`{units, nav, units × nav}` when none exists, and otherwise updates it to
`totalUnits + units` units, `investedValue + units × nav` invested, and
the weighted-average `avgNav` equal to their quotient. -/
theorem addUnits_holding_update (s : PortfolioState) (u n : ℚ) :
    (s.holding = none →
      (addUnits s u n).holding = some ⟨u, n, u * n⟩) ∧
    (∀ h : Holding, s.holding = some h →
      (addUnits s u n).holding
        = some ⟨h.totalUnits + u,
            (h.investedValue + u * n) / (h.totalUnits + u),
            h.investedValue + u * n⟩) := by
  constructor
  · intro hh
    simp [addUnits, updateHoldingAfterBuy, hh]
  · intro h hh
    simp [addUnits, updateHoldingAfterBuy, hh]

/-- Witness for `addUnits_holding_update`: a first BUY of 100 units at
NAV 10 creates `{100 units, avgNav 10, investedValue 1000}`. -/
theorem addUnits_holding_update_witness :
    (addUnits emptyPortfolio 100 10).holding = some ⟨100, 10, 100 * 10⟩ :=
  (addUnits_holding_update emptyPortfolio 100 10).1 rfl

/-! ## BUY/SELL round trip (claim C6) -/

theorem sumBuyUnits_nonneg (buys : List BuyTx)
    (h : ∀ b ∈ buys, 0 < b.units) : 0 ≤ sumBuyUnits buys := by
  induction buys with
  | nil => simp [sumBuyUnits]
  | cons b rest ih =>
      have hb : 0 < b.units := h b (List.mem_cons_self b rest)
      have hr : 0 ≤ sumBuyUnits rest :=
        ih fun x hx => h x (List.mem_cons_of_mem b hx)
      simp only [sumBuyUnits, List.map_cons, List.sum_cons]
      have : sumBuyUnits rest = (rest.map BuyTx.units).sum := rfl
      linarith [this ▸ hr]

/-- Consuming exactly the total units of a positive prefix of BUY lots
clears that prefix and leaves the rest with nothing more consumed. -/
theorem buildOpenLots_consume_all (buys rest : List BuyTx)
    (hpos : ∀ b ∈ buys, 0 < b.units) :
    buildOpenLots (buys ++ rest) (sumBuyUnits buys) = buildOpenLots rest 0 := by
  induction buys with
  | nil =>
      have h0 : sumBuyUnits [] = 0 := rfl
      rw [List.nil_append, h0]
  | cons b buys2 ih =>
      have hb : 0 < b.units := hpos b (List.mem_cons_self b buys2)
      have hrest : ∀ x ∈ buys2, 0 < x.units :=
        fun x hx => hpos x (List.mem_cons_of_mem b hx)
      have hnn : 0 ≤ sumBuyUnits buys2 := sumBuyUnits_nonneg buys2 hrest
      have hsum : sumBuyUnits (b :: buys2) = b.units + sumBuyUnits buys2 := by
        simp [sumBuyUnits]
      rw [List.cons_append, hsum]
      have hltpos : 0 < b.units + sumBuyUnits buys2 := by linarith
      have hle : b.units ≤ b.units + sumBuyUnits buys2 := by linarith
      simp only [buildOpenLots, if_pos hltpos, if_pos hle]
      have harg : b.units + sumBuyUnits buys2 - b.units = sumBuyUnits buys2 := by
        ring
      rw [harg]
      exact ih hrest

/-- Positivity of every BUY row in the log, as request validation
guarantees for reachable states. -/
def BuysPos (s : PortfolioState) : Prop :=
  ∀ b ∈ buysOf s.log, 0 < b.units

theorem applyOp_buysPos (s s1 : PortfolioState) (op : Op)
    (hok : applyOp s op = .ok s1) (hv : ValidOp op) (hp : BuysPos s) :
    BuysPos s1 := by
  cases op with
  | buy u n =>
      have hs1 : s1 = addUnits s u n := by
        simpa [applyOp] using hok.symm
      subst hs1
      intro b hb
      rw [addUnits] at hb
      simp only at hb
      rw [buysOf_append_buy] at hb
      rcases List.mem_append.mp hb with hb | hb
      · exact hp b hb
      · have : b = ⟨u, n⟩ := by simpa using hb
        subst this
        exact hv.1
  | sell u n =>
      cases hh : s.holding with
      | none => simp [applyOp, removeUnits, hh, Except.map] at hok
      | some h =>
          by_cases hlt : h.totalUnits < u
          · simp [applyOp, removeUnits, hh, hlt, Except.map] at hok
          · have hs1 : s1 = ⟨updateHoldingAfterSell h u,
                s.log ++ [⟨TxType.sell, u, n⟩]⟩ := by
              simp only [applyOp, removeUnits, hh, if_neg hlt, Except.map,
                Except.ok.injEq] at hok
              exact hok.symm
            subst hs1
            intro b hb
            simp only at hb
            rw [buysOf_append_sell] at hb
            exact hp b hb

theorem applyOps_buysPos (ops : List Op) (s s1 : PortfolioState)
    (hok : applyOps s ops = .ok s1) (hv : ∀ op ∈ ops, ValidOp op)
    (hp : BuysPos s) : BuysPos s1 := by
  induction ops generalizing s with
  | nil =>
      have : s = s1 := by simpa [applyOps] using hok
      exact this ▸ hp
  | cons op rest ih =>
      cases hstep : applyOp s op with
      | error e => simp [applyOps, hstep, Except.bind] at hok
      | ok smid =>
          have hrest : applyOps smid rest = .ok s1 := by
            simpa [applyOps, hstep, Except.bind] using hok
          exact ih smid hrest
            (fun x hx => hv x (List.mem_cons_of_mem op hx))
            (applyOp_buysPos s smid op hstep
              (hv op (List.mem_cons_self op rest)) hp)

/-- Claim C6: from any reachable state with no open Holding, a BUY of
`u > 0` units at NAV `n > 0` immediately followed by a SELL of the same
units at the same NAV succeeds with realized P/L 0 and leaves no Holding
row. -/
theorem buy_then_sell_roundtrip (s : PortfolioState) (u n : ℚ)
    (hreach : Reachable s) (hnone : s.holding = none)
    (hu : 0 < u) (hn : 0 < n) :
    ∃ s2 : PortfolioState,
      removeUnits (addUnits s u n) u n = .ok (s2, 0) ∧ s2.holding = none := by
  obtain ⟨ops, hv, hok⟩ := hreach
  have hbase : UnitsInv emptyPortfolio := by
    simp [UnitsInv, emptyPortfolio, holdingUnits, buysOf, sellUnitsOf,
      sumBuyUnits]
  have hinv : UnitsInv s := applyOps_unitsInv ops emptyPortfolio s hok hbase
  have hpos : BuysPos s := applyOps_buysPos ops emptyPortfolio s hok hv
    (by intro b hb; simp [buysOf, emptyPortfolio] at hb)
  have h0 : holdingUnits s = 0 := by simp [holdingUnits, hnone]
  have hsum : (sellUnitsOf s.log).sum = sumBuyUnits (buysOf s.log) := by
    unfold UnitsInv at hinv
    rw [h0] at hinv
    linarith
  have hbuy : addUnits s u n
      = ⟨some ⟨u, n, u * n⟩, s.log ++ [⟨TxType.buy, u, n⟩]⟩ := by
    simp [addUnits, updateHoldingAfterBuy, hnone]
  have hpl : calculateFifoRealizedPL (buysOf (s.log ++ [⟨TxType.buy, u, n⟩]))
      (sellUnitsOf (s.log ++ [⟨TxType.buy, u, n⟩])) u n = 0 := by
    rw [buysOf_append_buy, sellUnitsOf_append_buy]
    unfold calculateFifoRealizedPL
    rw [hsum, buildOpenLots_consume_all (buysOf s.log) [⟨u, n⟩] hpos]
    have hlots : buildOpenLots [⟨u, n⟩] 0 = [⟨u, n⟩] := by
      simp [buildOpenLots, hu]
    rw [hlots]
    simp [fifoPL, not_le.mpr hu, min_self]
  have hupd : updateHoldingAfterSell ⟨u, n, u * n⟩ u = none := by
    simp [updateHoldingAfterSell]
  refine ⟨⟨none, (s.log ++ [⟨TxType.buy, u, n⟩]) ++ [⟨TxType.sell, u, n⟩]⟩,
    ?_, rfl⟩
  rw [hbuy]
  simp [removeUnits, lt_irrefl, hupd, hpl]

/-- Witness for `buy_then_sell_roundtrip`: BUY 1 unit at NAV 1 from the
empty portfolio, then SELL it back at NAV 1. -/
theorem buy_then_sell_roundtrip_witness :
    ∃ s2 : PortfolioState,
      removeUnits (addUnits emptyPortfolio 1 1) 1 1 = .ok (s2, 0) ∧
      s2.holding = none :=
  buy_then_sell_roundtrip emptyPortfolio 1 1
    ⟨[], by simp, rfl⟩ rfl one_pos one_pos

/-! ## Embedding of the NAV history store
(`FundNavHistory.addNavEntry`, reached through
`NavService.saveNavHistory → saveNavHistoryByFundId`; in the source the
earlier `saveNavHistoryByFundId` that called a history-capping helper is
shadowed by the later duplicate class member, so `addNavEntry` is the
whole effective write path). -/

/-- One `{ nav, date }` entry of the NAV history array of a scheme. -/
structure NavEntry where
  nav : ℚ
  date : ℤ
deriving DecidableEq, Repr

/-- Insert an entry into a newest-first list, keeping entries with a
later-or-equal date ahead of it. -/
def insertByDateDesc (e : NavEntry) : List NavEntry → List NavEntry
  | [] => [e]
  | x :: xs =>
      if e.date ≤ x.date then x :: insertByDateDesc e xs
      else e :: x :: xs

/-- Sort newest-first by date (the `$sort: (date: -1)` of the `$push`). -/
def sortByDateDesc (l : List NavEntry) : List NavEntry :=
  l.foldr insertByDateDesc []

/-- `FundNavHistory.addNavEntry`: when an entry for the date exists,
set the NAV of that entry in place; otherwise push the new entry and keep the
array sorted newest-first.  No length cap is applied. -/
def addNavEntry (history : List NavEntry) (nav : ℚ) (date : ℤ) :
    List NavEntry :=
  if history.any fun e => e.date = date then
    history.map fun e => if e.date = date then ⟨nav, e.date⟩ else e
  else
    sortByDateDesc (history ++ [⟨nav, date⟩])

theorem insertByDateDesc_perm (e : NavEntry) (l : List NavEntry) :
    List.Perm (insertByDateDesc e l) (e :: l) := by
  induction l with
  | nil => exact List.Perm.refl _
  | cons x xs ih =>
      by_cases h : e.date ≤ x.date
      · simp only [insertByDateDesc, if_pos h]
        exact (ih.cons x).trans (List.Perm.swap e x xs)
      · simp only [insertByDateDesc, if_neg h]
        exact List.Perm.refl _

theorem sortByDateDesc_perm (l : List NavEntry) :
    List.Perm (sortByDateDesc l) l := by
  induction l with
  | nil => exact List.Perm.refl _
  | cons x xs ih =>
      simp only [sortByDateDesc, List.foldr_cons]
      exact (insertByDateDesc_perm x _).trans (ih.cons x)

/-- The history obtained by inserting `k` entries with pairwise distinct
dates `0, 1, …, k−1` (all at NAV 1) into an empty history. -/
def navHistoryAfterDistinctDates (k : ℕ) : List NavEntry :=
  (List.range k).foldl (fun h i => addNavEntry h 1 (i : ℤ)) []

/-- Claim C7, counterexample: 31 inserts with distinct dates leave a
history of length 31 — the `≤ H = 30` bound is not enforced and no oldest
entry is evicted (the capping call in the source is dead code shadowed by
a duplicate method). -/
theorem addNavEntry_no_cap_counterexample :
    (navHistoryAfterDistinctDates 31).length = 31 ∧
    ¬ (navHistoryAfterDistinctDates 31).length ≤ 30 := by
  constructor
  · decide
  · decide

/-- Claim C7 (amended: the deduplication half holds, the cap does not):
if the dates of the history are pairwise distinct then after `addNavEntry`
they still are — an insert for an existing date updates the NAV of that entry
in place, a new date is added once; but the length is unbounded. -/
theorem addNavEntry_dates_nodup (history : List NavEntry) (nav : ℚ)
    (date : ℤ) (h : (history.map NavEntry.date).Nodup) :
    ((addNavEntry history nav date).map NavEntry.date).Nodup := by
  unfold addNavEntry
  by_cases hmem : history.any fun e => e.date = date
  · rw [if_pos hmem]
    have hmap : (history.map fun e =>
        if e.date = date then (⟨nav, e.date⟩ : NavEntry) else e).map
          NavEntry.date = history.map NavEntry.date := by
      rw [List.map_map]
      apply List.map_congr_left
      intro e _
      by_cases hd : e.date = date <;> simp [hd]
    rw [hmap]
    exact h
  · rw [if_neg hmem]
    have hnotin : ∀ e ∈ history, e.date ≠ date := by
      intro e he hcontra
      apply hmem
      rw [List.any_eq_true]
      exact ⟨e, he, decide_eq_true hcontra⟩
    have happ : ((history ++ [(⟨nav, date⟩ : NavEntry)]).map NavEntry.date).Nodup := by
      rw [List.map_append, List.nodup_append]
      refine ⟨h, List.nodup_singleton _, ?_⟩
      intro d hd
      obtain ⟨e, he, hde⟩ := List.mem_map.mp hd
      simp only [List.map_cons, List.map_nil, List.mem_singleton]
      intro hd2
      exact hnotin e he (hde.trans hd2)
    exact ((sortByDateDesc_perm _).map NavEntry.date).nodup_iff.mpr happ

/-- Witness for `addNavEntry_dates_nodup`: adding date 7 to a history
holding only date 5 keeps the dates pairwise distinct. -/
theorem addNavEntry_dates_nodup_witness :
    ((addNavEntry [⟨1, 5⟩] 2 7).map NavEntry.date).Nodup :=
  addNavEntry_dates_nodup [⟨1, 5⟩] 2 7 (by simp)

/-! ## Embedding of the LatestNav store
(`LatestNav.updateNav` / `NavService.saveLatestNav`). -/

/-- The stored `LatestNav` row: `{ nav, date }` (`asOfDate`). -/
structure LatestNavRow where
  nav : ℚ
  date : ℤ
deriving DecidableEq, Repr

/-- `LatestNav.updateNav(schemeCode, nav, date)`: an unconditional
`findOneAndUpdate` upsert — the stored row, when present, is ignored. -/
def updateNav (stored : Option LatestNavRow) (nav : ℚ) (date : ℤ) :
    LatestNavRow :=
  ⟨nav, date⟩

/-- A sequence of successful `updateNav` writes applied to a store. -/
def applyNavWrites (stored : Option LatestNavRow)
    (writes : List (ℚ × ℤ)) : Option LatestNavRow :=
  writes.foldl (fun st w => some (updateNav st w.1 w.2)) stored

/-- Claim C8, counterexample: with `{nav 10, asOfDate 5}` stored, a write
carrying the older `asOfDate 3` replaces the row with `{nav 9, asOfDate 3}`
— the stored NAV and date change and the date regresses. -/
theorem updateNav_date_regression_counterexample :
    (3 : ℤ) < 5 ∧
    updateNav (some ⟨10, 5⟩) 9 3 = ⟨9, 3⟩ ∧
    updateNav (some ⟨10, 5⟩) 9 3 ≠ ⟨10, 5⟩ := by
  refine ⟨by norm_num, rfl, ?_⟩
  intro hcontra
  rw [show updateNav (some ⟨10, 5⟩) 9 3 = ⟨9, 3⟩ from rfl] at hcontra
  simp only [LatestNavRow.mk.injEq] at hcontra
  norm_num at hcontra

/-- Claim C8 (amended): `updateNav` is last-writer-wins with no date
comparison — after any sequence of successful writes the stored row
equals the most recent write, whatever its `asOfDate`; `asOfDate` is not
guaranteed non-decreasing. -/
theorem applyNavWrites_last_writer_wins (stored : Option LatestNavRow)
    (writes : List (ℚ × ℤ)) (nav : ℚ) (date : ℤ) :
    applyNavWrites stored (writes ++ [(nav, date)]) = some ⟨nav, date⟩ := by
  simp [applyNavWrites, List.foldl_append, updateNav]

/-! ## Embedding of `NavService.fetchLatestNav` (retry loop) -/

/-- The delay in milliseconds the code computes before the retry that
follows a failed `attempt`: `Math.pow(2, attempt) * 1000`. -/
def backoffDelayMs (attempt : ℕ) : ℕ := 2 ^ attempt * 1000

/-- The retry loop of `NavService.fetchLatestNav`: `attempt` runs from 1
to `maxRetries`; a failed attempt (transport failure or malformed
payload, `outcome attempt = none`) returns a typed error object on the
last attempt and otherwise sleeps `backoffDelayMs attempt` and retries.
Returns the result and the list of sleeps performed, in order.  The value
`maxRetries - attempt + 1` (the remaining attempts) is the structural
fuel. -/
def fetchLatestNavGo (outcome : ℕ → Option ℚ) (maxRetries : ℕ) :
    ℕ → ℕ → Except String ℚ × List ℕ
  | _, 0 => (.error "Failed after max retries", [])
  | attempt, fuel + 1 =>
      match outcome attempt with
      | some nav => (.ok nav, [])
      | none =>
          if attempt = maxRetries then
            (.error "Failed after max retries", [])
          else
            let rest := fetchLatestNavGo outcome maxRetries (attempt + 1) fuel
            (rest.1, backoffDelayMs attempt :: rest.2)

/-- `NavService.fetchLatestNav(schemeCode, maxRetries)` as a function of
the per-attempt outcomes. -/
def fetchLatestNav (outcome : ℕ → Option ℚ) (maxRetries : ℕ) :
    Except String ℚ × List ℕ :=
  fetchLatestNavGo outcome maxRetries 1 maxRetries

/-- Claim C9 (code bug): under persistent transport failure the loop
makes its 3 attempts and then returns a typed error value — but the two
sleeps between the three attempts are 2000 ms and 4000 ms
(`2^attempt × 1000` with `attempt` starting at 1), not the 1 s, 2 s, 4 s
schedule that the claim and the comment in the code itself state. -/
theorem fetchLatestNav_backoff_schedule :
    fetchLatestNav (fun _ => none) 3
      = (.error "Failed after max retries", [2000, 4000]) ∧
    ([2000, 4000] : List ℕ) ≠ [1000, 2000, 4000] ∧
    ([2000, 4000] : List ℕ) ≠ [1000, 2000] := by
  refine ⟨rfl, by simp, by simp⟩

end MFPT
